import Mathlib

/-!
Shallow embedding of the VLC playlist tree engine (`src/playlist/tree.c`).

A `playlist_item_t` is either a leaf (`i_children == -1`) or a container
node carrying an ordered list of children (`i_children` is the length of
`pp_children`).  Pointer identity of items is modelled by the `i_id`
field, which is unique per playlist; theorems that depend on pointer
identity therefore carry a `Nodup` hypothesis on the multiset of ids of
the tree.  Traversal cursors are modelled as index paths from the
traversal root (the `p_parent` pointer of the node at path `p ++ [i]`
is the node at path `p`).
-/

namespace VlcTree

/-- The flag bits of `i_flags` that the engine inspects:
`PLAYLIST_RO_FLAG`, `PLAYLIST_SKIP_FLAG`, `PLAYLIST_DBL_FLAG`. -/
structure Flags where
  ro : Bool
  skip : Bool
  dbl : Bool
deriving DecidableEq, Repr

/-- A `playlist_item_t` rooted subtree.  `leaf` is an item with
`i_children == -1`; `node` is a container whose `pp_children` array is
the `children` list.  `i_id` is the item id, `i_nb_played` the play
count of the attached input item. -/
inductive PItem : Type where
  | leaf (i_id : Nat) (fl : Flags) (i_nb_played : Nat) : PItem
  | node (i_id : Nat) (fl : Flags) (children : List PItem) : PItem
deriving Repr

/-- The `i_id` field. -/
def getId : PItem → Nat
  | .leaf i _ _ => i
  | .node i _ _ => i

/-- `true` exactly when `i_children > 0` (a non-empty container). -/
def hasChildren : PItem → Bool
  | .node _ _ (_ :: _) => true
  | _ => false

/-- Follow a path of child indices from a root item. -/
def get? (t : PItem) : List Nat → Option PItem
  | [] => some t
  | i :: p =>
    match t with
    | .leaf _ _ _ => none
    | .node _ _ cs =>
      match cs[i]? with
      | some c => get? c p
      | none => none

mutual

/-- All item ids occurring in the subtree (the node itself included). -/
def subtreeIds : PItem → List Nat
  | .leaf i _ _ => [i]
  | .node i _ cs => i :: subtreeIdsList cs

/-- All item ids occurring in a list of subtrees. -/
def subtreeIdsList : List PItem → List Nat
  | [] => []
  | c :: cs => subtreeIds c ++ subtreeIdsList cs

end

/-! ## Traversal engine (`GetNextItem`, `GetNextUncle`, `GetPrevItem`,
`GetPrevUncle`, `playlist_GetNextLeaf`, `playlist_GetPrevLeaf`)

Cursors are paths from the traversal root `p_root`.  The `p_parent`
pointer of the item at path `p ++ [i]` is the item at path `p`; pointer
comparisons (`pp_children[i] == p_item`, `p_parent == p_root`) are
rendered as comparisons of the unique item ids, resp. of paths.  The
upward loops recurse on the reversed path (deepest index first), which
makes the parent step structural. -/

/-- `GetNextUncle`: `rq` is the reversed path of `p_parent` (the parent
of the item the lookup starts from).  At each level the loop locates
`p_parent` among its own parent's children and returns the next sibling
if there is one; it stops with `NULL` when the grandparent is the
traversal root.  For `rq = []` the grandparent lies outside the modelled
subtree (the C code is only reached with `p_parent != p_root`).
The source never resets `b_found` between levels, but a failed scan
leaves `i` at `i_children`, which makes the guarded return impossible
anyway, so the persisted flag is behaviourally the same as the `none`
branch here. -/
def GetNextUncleR (root : PItem) : List Nat → Option (List Nat)
  | [] => none
  | i :: rg =>
    match get? root rg.reverse with
    | some (.node _ _ cs) =>
      match get? root (i :: rg).reverse with
      | some par =>
        match cs.findIdx? (fun c => getId c == getId par) with
        | some j =>
          if j + 1 < cs.length then some (rg.reverse ++ [j + 1])
          else if rg = [] then none else GetNextUncleR root rg
        | none => if rg = [] then none else GetNextUncleR root rg
      | none => none
    | _ => none

/-- `GetNextItem(p_playlist, p_root, p_item)`: the cursor `none` is the
`p_item == NULL` case, in which the scan starts before the first child
of `p_root`.  A non-empty container cursor yields its first child;
otherwise the cursor is located among its parent's children and the
next sibling (or, past the last sibling, the next uncle) is returned,
`none` once the parent is the root. -/
def GetNextItem (root : PItem) (cur : Option (List Nat)) : Option (List Nat) :=
  match cur with
  | some p =>
    match get? root p with
    | some (.node _ _ (_ :: _)) => some (p ++ [0])
    | some t =>
      match p.reverse with
      | [] => none
      | _ :: rq =>
        match get? root rq.reverse with
        | some (.node _ _ cs) =>
          match cs.findIdx? (fun c => getId c == getId t) with
          | some j =>
            if j + 1 ≥ cs.length then
              if rq = [] then none else GetNextUncleR root rq
            else some (rq.reverse ++ [j + 1])
          | none => none
        | _ => none
    | none => none
  | none =>
    match root with
    | .node _ _ (_ :: _) => some [0]
    | _ => none

/-- Outcome of `GetPrevItem` / `playlist_GetPrevLeaf`: the C code calls
`abort()` when `GetPrevItem` is entered with `p_item == NULL`, so the
result type distinguishes a normal return from the abort. -/
inductive PrevRes : Type where
  | abort : PrevRes
  | ret (r : Option (List Nat)) : PrevRes
deriving DecidableEq, Repr

/-- The downward `for` scan of a children array
(`for (i = count-1; i >= 0; i--)`): index of the first match when
scanning from the last child towards the first. -/
def findIdxDown (f : PItem → Bool) : List PItem → Option Nat
  | [] => none
  | c :: rest =>
    match findIdxDown f rest with
    | some j => some (j + 1)
    | none => if f c then some 0 else none

/-- `GetPrevUncle`: mirror of `GetNextUncleR`, except that the source
guards the previous-sibling return with `i - 1 > 0` instead of
`i - 1 >= 0`, so a previous sibling sitting at index 0 is never
returned (the loop climbs past it instead).  A failed downward scan
leaves the C loop variable at `-1`, for which `i - 1 > 0` is false, so
the stale `b_found` flag again changes nothing. -/
def GetPrevUncleR (root : PItem) : List Nat → Option (List Nat)
  | [] => none
  | i :: rg =>
    match get? root rg.reverse with
    | some (.node _ _ cs) =>
      match get? root (i :: rg).reverse with
      | some par =>
        match findIdxDown (fun c => getId c == getId par) cs with
        | some j =>
          if j - 1 > 0 then some (rg.reverse ++ [j - 1])
          else if rg = [] then none else GetPrevUncleR root rg
        | none => if rg = [] then none else GetPrevUncleR root rg
      | none => none
    | _ => none

/-- `GetPrevItem(p_playlist, p_root, p_item)`: a non-empty container
cursor yields its *last* child; the `p_item == NULL` case reaches
`msg_Err` followed by `abort()` in the source.  Otherwise the cursor is
located among its parent's children by a downward scan and the previous
sibling (or, before the first sibling, the previous uncle) is returned,
`none` once the parent is the root. -/
def GetPrevItem (root : PItem) (cur : Option (List Nat)) : PrevRes :=
  match cur with
  | none => PrevRes.abort
  | some p =>
    match get? root p with
    | some (.node _ _ (c :: cs)) => PrevRes.ret (some (p ++ [(c :: cs).length - 1]))
    | some t =>
      match p.reverse with
      | [] => PrevRes.ret none
      | _ :: rq =>
        match get? root rq.reverse with
        | some (.node _ _ cs) =>
          match findIdxDown (fun c => getId c == getId t) cs with
          | some j =>
            if j = 0 then
              if rq = [] then PrevRes.ret none
              else PrevRes.ret (GetPrevUncleR root rq)
            else PrevRes.ret (some (rq.reverse ++ [j - 1]))
          | none => PrevRes.ret none
        | _ => PrevRes.ret none
    | none => PrevRes.ret none

/-- `playlist_GetNextLeaf(p_playlist, p_root, p_item, b_ena, b_unplayed)`,
the `while (1)` walk rendered with a step budget (`fuel`); every use in
the development supplies enough fuel, exhaustion returns `none`.
A step that returns the root itself breaks out of the loop and is
returned as found (`p_next == p_root` check of the source). -/
def playlist_GetNextLeaf (fuel : Nat) (root : PItem) (cur : Option (List Nat))
    (b_ena b_unplayed : Bool) : Option (List Nat) :=
  match fuel with
  | 0 => none
  | fuel + 1 =>
    match GetNextItem root cur with
    | none => none
    | some p =>
      if p = [] then some p
      else
        match get? root p with
        | some (.leaf _ fl played) =>
          let enaOk := !(b_ena && fl.dbl)
          let unplayedOk := !(b_unplayed && played != 0)
          if enaOk && unplayedOk then some p
          else playlist_GetNextLeaf fuel root (some p) b_ena b_unplayed
        | _ => playlist_GetNextLeaf fuel root (some p) b_ena b_unplayed

/-- `playlist_GetPrevLeaf`: mirror loop over `GetPrevItem`; an abort of
`GetPrevItem` aborts the whole call. -/
def playlist_GetPrevLeaf (fuel : Nat) (root : PItem) (cur : Option (List Nat))
    (b_ena b_unplayed : Bool) : PrevRes :=
  match fuel with
  | 0 => PrevRes.ret none
  | fuel + 1 =>
    match GetPrevItem root cur with
    | PrevRes.abort => PrevRes.abort
    | PrevRes.ret none => PrevRes.ret none
    | PrevRes.ret (some p) =>
      if p = [] then PrevRes.ret (some p)
      else
        match get? root p with
        | some (.leaf _ fl played) =>
          let enaOk := !(b_ena && fl.dbl)
          let unplayedOk := !(b_unplayed && played != 0)
          if enaOk && unplayedOk then PrevRes.ret (some p)
          else playlist_GetPrevLeaf fuel root (some p) b_ena b_unplayed
        | _ => playlist_GetPrevLeaf fuel root (some p) b_ena b_unplayed

/-! ## Spec-side pre-order successor

`specUpR`/`specNext` formalise the spec's wording of `NextItem`:
first child of a non-empty container, else next sibling, else the next
sibling of the nearest ancestor strictly below the root, else none.
They are compared with the source-derived `GetNextItem` in claim C1. -/

/-- Spec wording, upward part, on the reversed cursor path: next sibling
of the addressed item if it exists, else recurse on the parent as long
as the parent is not the traversal root. -/
def specUpR (root : PItem) : List Nat → Option (List Nat)
  | [] => none
  | i :: rq =>
    if (get? root (rq.reverse ++ [i + 1])).isSome then some (rq.reverse ++ [i + 1])
    else if rq = [] then none
    else specUpR root rq

/-- Spec wording of `NextItem` for a cursor inside the root's subtree. -/
def specNext (root : PItem) (p : List Nat) : Option (List Nat) :=
  match get? root p with
  | some (.node _ _ (_ :: _)) => some (p ++ [0])
  | some _ => specUpR root p.reverse
  | none => none

/-! ## Query engine: `playlist_NodeChildrenCount` -/

/-- `i_children != -1`: the item is a container. -/
def isContainer : PItem → Bool
  | .node _ _ _ => true
  | .leaf _ _ _ => false

mutual

/-- `playlist_NodeChildrenCount`: `0` for a leaf; for a container, the
number of immediate children plus the loop over them. -/
def playlist_NodeChildrenCount : PItem → Nat
  | .leaf _ _ _ => 0
  | .node _ _ cs => cs.length + childrenCountLoop cs

/-- The `for` loop of `playlist_NodeChildrenCount`: it `break`s at the
first child that is a leaf, and otherwise adds the recursive count of
the (container) child. -/
def childrenCountLoop : List PItem → Nat
  | [] => 0
  | .leaf _ _ _ :: _ => 0
  | .node i fl cs :: rest =>
    playlist_NodeChildrenCount (.node i fl cs) + childrenCountLoop rest

end

/-! ## Mutation engine over the pointer arena

`playlist_NodeInsert` / `playlist_NodeRemoveItem` mutate the
`pp_children` array of one node and the `p_parent` back-reference of
another, so they are embedded over an explicit arena state: item
addresses are `Nat`, `childrenOf` is the `pp_children` array
(`none` encodes `i_children == -1`) and `parentOf` the `p_parent`
field (`none` encodes a `NULL` parent). -/

/-- The mutable per-item state of the playlist arena. -/
structure St where
  childrenOf : Nat → Option (List Nat)
  parentOf : Nat → Option Nat

/-- `playlist_NodeInsert(p_playlist, p_item, p_parent, i_position)`:
`none` is the `assert( p_parent && p_parent->i_children != -1 )`
failure; position `-1` is the append sentinel.  The item is inserted
into the parent's children and its `p_parent` back-reference is set
(and nothing else changes). -/
def playlist_NodeInsert (s : St) (item parent : Nat) (i_position : Int) :
    Option St :=
  match s.childrenOf parent with
  | none => none
  | some cs =>
    let q : Nat := if i_position = -1 then cs.length else i_position.toNat
    some
      { childrenOf := fun n =>
          if n = parent then some (cs.insertIdx q item) else s.childrenOf n
        parentOf := fun n =>
          if n = item then some parent else s.parentOf n }

/-- `playlist_NodeAppend` = insert at the end sentinel `-1`. -/
def playlist_NodeAppend (s : St) (item parent : Nat) : Option St :=
  playlist_NodeInsert s item parent (-1)

/-- The `for` loop of `playlist_NodeRemoveItem` over the parent's
children array, starting at index `i`: on a match the element is
removed in place (`REMOVE_ELEM`) and the scan continues at `i + 1`
of the shrunk array — there is no `break`, and the element shifted
into the vacated slot is never examined. -/
def removeLoop (item : Nat) (cs : List Nat) (i : Nat) : List Nat :=
  if h : i < cs.length then
    if cs.get ⟨i, h⟩ = item then removeLoop item (cs.eraseIdx i) (i + 1)
    else removeLoop item cs (i + 1)
  else cs
termination_by cs.length - i
decreasing_by
  · simp [List.length_eraseIdx, h]
    omega
  · omega

/-- `playlist_NodeRemoveItem(p_playlist, p_item, p_parent)`: runs the
removal loop on the parent's children.  The removed item itself is not
touched — in particular its `p_parent` reference is left as it was.
On a leaf parent (`i_children == -1`) the loop body never runs and the
call still returns success. -/
def playlist_NodeRemoveItem (s : St) (item parent : Nat) : St :=
  match s.childrenOf parent with
  | none => s
  | some cs =>
    { s with
      childrenOf := fun n =>
        if n = parent then some (removeLoop item cs 0) else s.childrenOf n }

/-- `playlist_NodeCreate(p_playlist, psz_name, p_parent, i_flags,
p_input)`: `allocOk = false` is the `playlist_ItemNewFromInput == NULL`
failure (the only failure mode).  A fresh item at address `newId` gets
`i_children = 0` — an empty container, never the leaf sentinel —
whether or not an external input item was supplied (`inputGiven`); the
item is appended to the registry and, when a parent is given, appended
to it via `playlist_NodeAppend`. -/
def playlist_NodeCreate (s : St) (reg : List Nat) (inputGiven : Bool)
    (newId : Nat) (p_parent : Option Nat) (allocOk : Bool) :
    Option (St × List Nat) :=
  if !allocOk then none
  else
    let _ := inputGiven
    let s1 : St :=
      { childrenOf := fun n => if n = newId then some [] else s.childrenOf n
        parentOf := s.parentOf }
    let reg1 := reg ++ [newId]
    match p_parent with
    | some parent =>
      match playlist_NodeAppend s1 newId parent with
      | some s2 => some (s2, reg1)
      | none => none
    | none => some (s1, reg1)

/-! ## Consistency invariant (claim C5) -/

/-- Each child listed in a container's children sequence has its parent
reference pointing back to that container. -/
def forwardConsistent (s : St) : Prop :=
  ∀ c cs, s.childrenOf c = some cs → ∀ n ∈ cs, s.parentOf n = some c

/-- Each node's parent back-reference names a container whose children
sequence currently includes the node. -/
def backConsistent (s : St) : Prop :=
  ∀ n c, s.parentOf n = some c → ∃ cs, s.childrenOf c = some cs ∧ n ∈ cs

/-- Parent/children mutual consistency. -/
def consistent (s : St) : Prop := forwardConsistent s ∧ backConsistent s

/-! ## Recursive deletion (`playlist_NodeEmpty` descent inside
`playlist_NodeDelete`) with the external item registry -/

/-- The external collaborators' state: the `all_items` registry (item
ids) and the trace of `item-deleted` notifications, in emission
order. -/
structure RegSt where
  reg : List Nat
  notifs : List Nat

/-- Modelled from the spec: `playlist_DeleteFromItemId` is the external
item-registry delete path (not part of `tree.c`); per the spec it
removes the id from the registry — an idempotent no-op when the id is
absent — emits the deletion notification, and destroys (hence
detaches) the leaf. -/
def playlist_DeleteFromItemId (id : Nat) (st : RegSt) : RegSt :=
  { reg := st.reg.erase id, notifs := st.notifs ++ [id] }

mutual

/-- `playlist_NodeDelete(p_playlist, p_root, b_delete_items, b_force)`:
`none` is the `VLC_EGENERIC` return on a leaf root.  The children are
processed from last to first; then the root itself is destroyed —
notified, deregistered (`ARRAY_BSEARCH`/`ARRAY_REMOVE` on `all_items`),
detached and freed — unless it carries `PLAYLIST_RO_FLAG` and `b_force`
is unset, in which case it survives unchanged (result `some root'`)
with only its children processed. -/
def playlist_NodeDelete (t : PItem) (b_delete_items b_force : Bool)
    (st : RegSt) : Option (Option PItem × RegSt) :=
  match t with
  | .leaf _ _ _ => none
  | .node id fl cs =>
    let r := nodeDeleteChildren cs b_delete_items b_force st
    if fl.ro && !b_force then some (some (.node id fl r.1), r.2)
    else
      some (none,
        { reg := r.2.reg.erase id, notifs := r.2.notifs ++ [id] })

/-- The downward child loop shared by `playlist_NodeDelete` (and
`playlist_NodeEmpty`): later siblings are processed first; container
children go through `playlist_NodeDelete` recursively, leaf children
through `playlist_DeleteFromItemId` when `b_delete_items` is set and
are kept otherwise.  Returns the surviving children, in order, with
the updated registry state. -/
def nodeDeleteChildren (cs : List PItem) (b_delete_items b_force : Bool)
    (st : RegSt) : List PItem × RegSt :=
  match cs with
  | [] => ([], st)
  | c :: rest =>
    let r := nodeDeleteChildren rest b_delete_items b_force st
    match c with
    | .leaf id fl played =>
      if b_delete_items then (r.1, playlist_DeleteFromItemId id r.2)
      else (.leaf id fl played :: r.1, r.2)
    | .node id fl ccs =>
      match playlist_NodeDelete (.node id fl ccs) b_delete_items b_force r.2 with
      | some (some c', st2) => (c' :: r.1, st2)
      | some (none, st2) => (r.1, st2)
      | none => (.node id fl ccs :: r.1, r.2)

end

/-! ## Concrete instances used by witnesses and counterexamples -/

/-- All flag bits clear. -/
def fl0 : Flags := ⟨false, false, false⟩

/-- `PLAYLIST_RO_FLAG` set. -/
def flRO : Flags := ⟨true, false, false⟩

/-- The spec's worked example: a category root with children
`[A(container, children = [A1(leaf), A2(leaf)]), B(leaf)]`.
Paths: `A = [0]`, `A1 = [0,0]`, `A2 = [0,1]`, `B = [1]`. -/
def exTreeC1 : PItem :=
  .node 0 fl0 [.node 1 fl0 [.leaf 2 fl0 0, .leaf 3 fl0 0], .leaf 4 fl0 0]

/-- Round-trip counterexample tree: `root [X(leaf), Y(container [Y1(leaf)])]`.
Paths: `X = [0]`, `Y = [1]`, `Y1 = [1,0]`. -/
def exTreeC2 : PItem :=
  .node 20 fl0 [.leaf 21 fl0 0, .node 22 fl0 [.leaf 23 fl0 0]]

/-- The spec's count example: a container with children
`[leaf, container-with-2-leaves]`. -/
def exTreeC3 : PItem :=
  .node 30 fl0 [.leaf 31 fl0 0, .node 32 fl0 [.leaf 33 fl0 0, .leaf 34 fl0 0]]

/-- Subtree for the C7 witness: a read-only container with a leaf and a
nested container holding a leaf. -/
def exTreeC7 : PItem :=
  .node 70 flRO [.leaf 71 fl0 0, .node 72 fl0 [.leaf 73 fl0 0]]

/-- Registry state for the C7 witness: the subtree's ids plus an
unrelated id `99`. -/
def exRegC7 : RegSt := ⟨[70, 71, 72, 73, 99], []⟩

/-- Subtree for the C8 witness: a read-only container with one leaf
child and one container child. -/
def exTreeC8 : PItem :=
  .node 80 flRO [.leaf 81 fl0 0, .node 82 fl0 [.leaf 83 fl0 0]]

/-- Registry state for the C8 witness. -/
def exRegC8 : RegSt := ⟨[80, 81, 82, 83], []⟩

/-- Container root with a single leaf child, for the C9 failing input. -/
def exTreeC9 : PItem := .node 90 fl0 [.leaf 91 fl0 0]

/-- Arena for the C4 witness: container `0` with children `[1, 2]`,
detached item `5`. -/
def exStC4 : St :=
  ⟨fun n => if n = 0 then some [1, 2] else none,
   fun n => if n = 1 ∨ n = 2 then some 0 else none⟩

/-- Consistent arena for the C5 counterexample: container `0` whose
only child is `1`. -/
def exStC5 : St :=
  ⟨fun n => if n = 0 then some [1] else none,
   fun n => if n = 1 then some 0 else none⟩

/-- Arena for the C6 counterexample: container `0` with children
`[1, 2, 1]` (item `1` listed twice, non-adjacently). -/
def exStC6 : St :=
  ⟨fun n => if n = 0 then some [1, 2, 1] else none,
   fun n => if n = 1 ∨ n = 2 then some 0 else none⟩

/-- Arena for the C10 witness: a lone container `0`. -/
def exStC10 : St :=
  ⟨fun n => if n = 0 then some [] else none, fun _ => none⟩

/-- The arena produced by the C10 witness creation. -/
def exStC10res : St :=
  ⟨fun n => if n = 0 then some [7]
    else if n = 7 then some [] else exStC10.childrenOf n,
   fun n => if n = 7 then some 0 else exStC10.parentOf n⟩

/-! ## Path and id bookkeeping lemmas -/

theorem subtreeIds_node (a : Nat) (b : Flags) (cs : List PItem) :
    subtreeIds (.node a b cs) = a :: subtreeIdsList cs := rfl

theorem subtreeIdsList_eq_cons (e : PItem) (rest : List PItem) :
    subtreeIdsList (e :: rest) = subtreeIds e ++ subtreeIdsList rest := rfl

theorem get?_append (p q : List Nat) (t : PItem) :
    get? t (p ++ q) = (get? t p).bind fun s => get? s q := by
  induction p generalizing t with
  | nil => simp [get?]
  | cons i p ih =>
    cases t with
    | leaf a b c => simp [get?]
    | node a b cs =>
      simp only [List.cons_append, get?]
      cases cs[i]? with
      | none => simp
      | some c => simp [ih]

theorem get?_snoc (t : PItem) (q : List Nat) (i : Nat) :
    get? t (q ++ [i]) = (get? t q).bind fun s =>
      match s with
      | .node _ _ cs => cs[i]?
      | .leaf _ _ _ => none := by
  rw [get?_append]
  cases hq : get? t q with
  | none => simp
  | some s =>
    cases s with
    | leaf a b c => simp [get?]
    | node a b cs =>
      cases hc : cs[i]? with
      | none => simp [get?, hc]
      | some c => simp [get?, hc]

theorem get?_snoc_some {t : PItem} {q : List Nat} {i : Nat} {c : PItem}
    (h : get? t (q ++ [i]) = some c) :
    ∃ a b cs, get? t q = some (.node a b cs) ∧ cs[i]? = some c := by
  rw [get?_snoc] at h
  cases hq : get? t q with
  | none => rw [hq] at h; simp at h
  | some s =>
    rw [hq] at h
    cases s with
    | leaf a b pl => simp at h
    | node a b cs => exact ⟨a, b, cs, rfl, h⟩

theorem getId_mem_subtreeIds (t : PItem) : getId t ∈ subtreeIds t := by
  cases t <;> simp [getId, subtreeIds]

theorem subtreeIds_subset_list :
    ∀ {cs : List PItem} {c : PItem}, c ∈ cs →
      ∀ x ∈ subtreeIds c, x ∈ subtreeIdsList cs
  | e :: rest, c, h, x, hx => by
    rw [subtreeIdsList_eq_cons]
    rcases List.mem_cons.mp h with rfl | hmem
    · exact List.mem_append_left _ hx
    · exact List.mem_append_right _ (subtreeIds_subset_list hmem x hx)

theorem nodup_list_of_mem :
    ∀ {cs : List PItem} {c : PItem}, (subtreeIdsList cs).Nodup → c ∈ cs →
      (subtreeIds c).Nodup
  | e :: rest, c, h, hc => by
    rw [subtreeIdsList_eq_cons, List.nodup_append] at h
    rcases List.mem_cons.mp hc with rfl | hmem
    · exact h.1
    · exact nodup_list_of_mem h.2.1 hmem

theorem mem_subtreeIds_of_get? {t s : PItem} {q : List Nat}
    (h : get? t q = some s) : ∀ x ∈ subtreeIds s, x ∈ subtreeIds t := by
  induction q generalizing t with
  | nil => simp_all [get?]
  | cons i p ih =>
    cases t with
    | leaf a b c => simp [get?] at h
    | node a b cs =>
      simp only [get?] at h
      cases hc : cs[i]? with
      | none => rw [hc] at h; exact absurd h (by simp)
      | some c =>
        rw [hc] at h
        intro x hx
        have hcm : c ∈ cs := List.getElem?_mem hc
        have := subtreeIds_subset_list hcm x (ih h x hx)
        rw [subtreeIds_node]
        exact List.mem_cons_of_mem _ this

theorem nodup_get? {t s : PItem} {q : List Nat}
    (ht : (subtreeIds t).Nodup) (h : get? t q = some s) :
    (subtreeIds s).Nodup := by
  induction q generalizing t with
  | nil => simp only [get?] at h; cases h; exact ht
  | cons i p ih =>
    cases t with
    | leaf a b c => simp [get?] at h
    | node a b cs =>
      simp only [get?] at h
      cases hc : cs[i]? with
      | none => rw [hc] at h; exact absurd h (by simp)
      | some c =>
        rw [hc] at h
        have hlist : (subtreeIdsList cs).Nodup := by
          rw [subtreeIds_node] at ht
          exact (List.nodup_cons.mp ht).2
        exact ih (nodup_list_of_mem hlist (List.getElem?_mem hc)) h

theorem disjoint_sibling_ids {cs : List PItem} (h : (subtreeIdsList cs).Nodup) :
    ∀ {j i : Nat} {d c : PItem}, j < i → cs[j]? = some d → cs[i]? = some c →
      ∀ x ∈ subtreeIds d, x ∉ subtreeIds c := by
  induction cs with
  | nil => intro j i d c _ hj; simp at hj
  | cons e rest ih =>
    intro j i d c hlt hj hi x hx
    rw [subtreeIdsList_eq_cons, List.nodup_append] at h
    cases j with
    | zero =>
      simp only [List.getElem?_cons_zero] at hj
      cases hj
      cases i with
      | zero => omega
      | succ i =>
        simp only [List.getElem?_cons_succ] at hi
        intro hxc
        exact h.2.2 hx (subtreeIds_subset_list (List.getElem?_mem hi) x hxc)
    | succ j =>
      cases i with
      | zero => omega
      | succ i =>
        simp only [List.getElem?_cons_succ] at hj hi
        exact ih h.2.1 (by omega) hj hi x hx

theorem findIdx?_at (f : PItem → Bool) :
    ∀ (cs : List PItem) (i : Nat) (c : PItem), cs[i]? = some c → f c = true →
      (∀ j d, j < i → cs[j]? = some d → f d = false) →
      cs.findIdx? f = some i := by
  intro cs
  induction cs with
  | nil => intro i c hc; simp at hc
  | cons e rest ih =>
    intro i c hc hfc hprev
    cases i with
    | zero =>
      simp only [List.getElem?_cons_zero] at hc
      cases hc
      simp [List.findIdx?_cons, hfc]
    | succ i =>
      simp only [List.getElem?_cons_succ] at hc
      have he : f e = false := hprev 0 e (Nat.succ_pos i) (by simp)
      have hrest : ∀ j d, j < i → rest[j]? = some d → f d = false := by
        intro j d hj hjd
        exact hprev (j + 1) d (by omega) (by simpa using hjd)
      have := ih i c hc hfc hrest
      simp [List.findIdx?_cons, he, List.findIdx?_succ, this]

theorem findIdx?_getId {root : PItem} {q : List Nat} {i : Nat}
    {a : Nat} {b : Flags} {cs : List PItem} {c : PItem}
    (hroot : (subtreeIds root).Nodup)
    (hq : get? root q = some (.node a b cs)) (hc : cs[i]? = some c) :
    cs.findIdx? (fun x => getId x == getId c) = some i := by
  apply findIdx?_at _ cs i c hc (by simp)
  intro j d hj hjd
  have hlist : (subtreeIdsList cs).Nodup := by
    have := nodup_get? hroot hq
    rw [subtreeIds_node] at this
    exact (List.nodup_cons.mp this).2
  have hne : getId d ≠ getId c := by
    intro he
    exact disjoint_sibling_ids hlist hj hjd hc (getId d)
      (getId_mem_subtreeIds d) (he ▸ getId_mem_subtreeIds c)
  simp [hne]

/-! ## The uncle lookup agrees with the spec's upward search -/

theorem uncle_eq_specUp (root : PItem) :
    ∀ (rq : List Nat), (subtreeIds root).Nodup → rq ≠ [] →
      (get? root rq.reverse).isSome →
      GetNextUncleR root rq = specUpR root rq
  | i :: rg, hnd, _, hval => by
    rw [List.reverse_cons] at hval
    obtain ⟨u, hu⟩ := Option.isSome_iff_exists.mp hval
    obtain ⟨a, b, cs, hg, hcs⟩ := get?_snoc_some hu
    have hfind := findIdx?_getId hnd hg hcs
    have hsib : get? root (rg.reverse ++ [i + 1]) = cs[i + 1]? := by
      rw [get?_snoc, hg]
      rfl
    simp only [GetNextUncleR, specUpR, List.reverse_cons, hg, hu, hfind, hsib]
    by_cases hlt : i + 1 < cs.length
    · obtain ⟨v, hv⟩ : ∃ v, cs[i + 1]? = some v :=
        ⟨_, List.getElem?_eq_getElem hlt⟩
      simp [hlt, hv]
    · have hnone : cs[i + 1]? = none := List.getElem?_eq_none (le_of_not_lt hlt)
      simp only [hnone, if_neg hlt, Option.isSome_none, Bool.false_eq_true,
        if_false]
      by_cases hrg : rg = []
      · simp [hrg]
      · simp only [if_neg hrg]
        exact uncle_eq_specUp root rg hnd hrg (by simp [hg])

/-- `GetNextItem` computes the spec's pre-order successor for every
valid non-root cursor, in every tree with distinct item ids. -/
theorem nextItem_eq_specNext (root : PItem) (p : List Nat) (t : PItem)
    (hnd : (subtreeIds root).Nodup) (ht : get? root p = some t)
    (hp : p ≠ []) : GetNextItem root (some p) = specNext root p := by
  cases hrev : p.reverse with
  | nil => exact absurd (List.reverse_eq_nil_iff.mp hrev) hp
  | cons i rq =>
    have hpe : p = rq.reverse ++ [i] := by
      have := List.reverse_eq_iff.mp hrev
      simpa [List.reverse_cons] using this
    cases t with
    | node a b cs =>
      cases cs with
      | cons c cs1 =>
        simp [GetNextItem, specNext, ht]
      | nil =>
        obtain ⟨a2, b2, cs2, hg, hcs⟩ := get?_snoc_some (hpe ▸ ht)
        have hfind := findIdx?_getId hnd hg hcs
        have hsib : get? root (rq.reverse ++ [i + 1]) = cs2[i + 1]? := by
          rw [get?_snoc, hg]
          rfl
        simp only [GetNextItem, specNext, ht, hrev, hg, hfind, hsib,
          specUpR]
        by_cases hlt : i + 1 < cs2.length
        · obtain ⟨v, hv⟩ : ∃ v, cs2[i + 1]? = some v :=
            ⟨_, List.getElem?_eq_getElem hlt⟩
          simp [hlt, hv, Nat.not_le_of_lt hlt]
        · have hnone : cs2[i + 1]? = none :=
            List.getElem?_eq_none (le_of_not_lt hlt)
          simp only [hnone, ge_iff_le, if_pos (le_of_not_lt hlt),
            Option.isSome_none, Bool.false_eq_true, if_false]
          by_cases hrg : rq = []
          · simp [hrg]
          · simp only [if_neg hrg]
            exact uncle_eq_specUp root rq hnd hrg (by simp [hg])
    | leaf a b pl =>
      obtain ⟨a2, b2, cs2, hg, hcs⟩ := get?_snoc_some (hpe ▸ ht)
      have hfind := findIdx?_getId hnd hg hcs
      have hsib : get? root (rq.reverse ++ [i + 1]) = cs2[i + 1]? := by
        rw [get?_snoc, hg]
        rfl
      simp only [GetNextItem, specNext, ht, hrev, hg, hfind, hsib,
        specUpR]
      by_cases hlt : i + 1 < cs2.length
      · obtain ⟨v, hv⟩ : ∃ v, cs2[i + 1]? = some v :=
          ⟨_, List.getElem?_eq_getElem hlt⟩
        simp [hlt, hv, Nat.not_le_of_lt hlt]
      · have hnone : cs2[i + 1]? = none :=
          List.getElem?_eq_none (le_of_not_lt hlt)
        simp only [hnone, ge_iff_le, if_pos (le_of_not_lt hlt),
          Option.isSome_none, Bool.false_eq_true, if_false]
        by_cases hrg : rq = []
        · simp [hrg]
        · simp only [if_neg hrg]
          exact uncle_eq_specUp root rq hnd hrg (by simp [hg])

/-- C1: `GetNextItem` follows pre-order document order.  On the example
tree `root [A [A1, A2], B]` (paths `A1 = [0,0]`, `A2 = [0,1]`,
`B = [1]`) it steps `A1 ↦ A2`, `A2 ↦ B` (uncle lookup) and `B ↦ none`;
in general, for every tree with distinct ids and every valid cursor
strictly inside the root's subtree it agrees with the spec's chain:
first child of a non-empty container, else next sibling, else next
sibling of the nearest ancestor strictly below the root, else none
(the `specNext` formalisation). -/
theorem claim_C1_nextItem_preorder :
    (∀ (root : PItem) (p : List Nat) (t : PItem),
        (subtreeIds root).Nodup → get? root p = some t → p ≠ [] →
        GetNextItem root (some p) = specNext root p)
    ∧ GetNextItem exTreeC1 (some [0, 0]) = some [0, 1]
    ∧ GetNextItem exTreeC1 (some [0, 1]) = some [1]
    ∧ GetNextItem exTreeC1 (some [1]) = none :=
  ⟨fun root p t hnd ht hp => nextItem_eq_specNext root p t hnd ht hp,
   by rfl, by rfl, by rfl⟩

/-- Witness for C1: the general statement applied to the example tree
at cursor `A1 = [0, 0]`. -/
theorem claim_C1_nextItem_preorder_witness :
    GetNextItem exTreeC1 (some [0, 0]) = specNext exTreeC1 [0, 0] :=
  claim_C1_nextItem_preorder.1 exTreeC1 [0, 0] (.leaf 2 fl0 0)
    (by decide) (by rfl) (by simp)

/-! ## Claim C3: `playlist_NodeChildrenCount` -/

theorem childrenCountLoop_eq_takeWhile (cs : List PItem) :
    childrenCountLoop cs =
      ((cs.takeWhile isContainer).map playlist_NodeChildrenCount).sum := by
  induction cs with
  | nil => simp [childrenCountLoop]
  | cons c rest ih =>
    cases c with
    | leaf a fl pl => simp [childrenCountLoop, List.takeWhile_cons, isContainer]
    | node a fl ccs =>
      simp [childrenCountLoop, List.takeWhile_cons, isContainer, ih]

/-- C3: `playlist_NodeChildrenCount` returns 0 on a leaf; on a container
it returns the number of immediate children plus the recursive counts of
the immediate children scanned only up to (excluding) the first leaf
child — later siblings contribute nothing; on the example container
`[leaf, container-with-2-leaves]` it returns 2, not 4. -/
theorem claim_C3_childrenCount :
    (∀ (a : Nat) (fl : Flags) (pl : Nat),
        playlist_NodeChildrenCount (.leaf a fl pl) = 0)
    ∧ (∀ (a : Nat) (fl : Flags) (cs : List PItem),
        playlist_NodeChildrenCount (.node a fl cs) =
          cs.length +
            ((cs.takeWhile isContainer).map playlist_NodeChildrenCount).sum)
    ∧ playlist_NodeChildrenCount exTreeC3 = 2 :=
  ⟨fun _ _ _ => rfl,
   fun a fl cs => by
     rw [playlist_NodeChildrenCount, childrenCountLoop_eq_takeWhile],
   by rfl⟩

/-! ## Claim C4: append inserts once, last, order-preserving -/

/-- C4: after a successful `playlist_NodeAppend` of a not-yet-listed
item into a container, the item's parent back-reference names the
container and the container's children are exactly the previous
children, unchanged and in order, with the item appended once at the
last position. -/
theorem claim_C4_append (s : St) (item parent : Nat) (cs : List Nat)
    (hc : s.childrenOf parent = some cs) (hni : item ∉ cs) :
    ∃ s', playlist_NodeAppend s item parent = some s' ∧
      s'.parentOf item = some parent ∧
      s'.childrenOf parent = some (cs ++ [item]) ∧
      (cs ++ [item]).count item = 1 := by
  simp only [playlist_NodeAppend, playlist_NodeInsert, hc]
  refine ⟨_, rfl, ?_, ?_, ?_⟩
  · simp
  · simp [List.insertIdx_length_self]
  · simp [List.count_append, List.count_eq_zero_of_not_mem hni]

/-- Witness for C4 on the concrete arena `exStC4`. -/
theorem claim_C4_append_witness :
    ∃ s', playlist_NodeAppend exStC4 5 0 = some s' ∧
      s'.parentOf 5 = some 0 ∧
      s'.childrenOf 0 = some ([1, 2] ++ [5]) ∧
      ([1, 2] ++ [5]).count 5 = 1 :=
  claim_C4_append exStC4 5 0 [1, 2] (by rfl) (by decide)

/-! ## Lemmas about the removal loop -/

theorem removeLoop_subset (item : Nat) (cs : List Nat) (i : Nat) :
    ∀ x ∈ removeLoop item cs i, x ∈ cs := by
  refine removeLoop.induct item
    (fun cs i => ∀ x ∈ removeLoop item cs i, x ∈ cs) ?_ ?_ ?_ cs i
  · intro cs i h heq ih
    rw [removeLoop, dif_pos h, if_pos heq]
    intro x hx
    exact List.eraseIdx_subset _ _ (ih x hx)
  · intro cs i h heq ih
    rw [removeLoop, dif_pos h, if_neg heq]
    exact ih
  · intro cs i h
    rw [removeLoop, dif_neg h]
    exact fun x hx => hx

theorem removeLoop_of_not_mem (item : Nat) (cs : List Nat) (i : Nat) :
    item ∉ cs.drop i → removeLoop item cs i = cs := by
  refine removeLoop.induct item
    (fun cs i => item ∉ cs.drop i → removeLoop item cs i = cs) ?_ ?_ ?_ cs i
  · intro cs i h heq _ hnm
    exact absurd (by
      rw [List.drop_eq_getElem_cons h]
      rw [List.get_eq_getElem] at heq
      exact heq ▸ List.mem_cons_self _ _) hnm
  · intro cs i h heq ih hnm
    rw [removeLoop, dif_pos h, if_neg heq]
    refine ih fun hm => hnm ?_
    rw [List.drop_eq_getElem_cons h]
    exact List.mem_cons_of_mem _ hm
  · intro cs i h _
    rw [removeLoop, dif_neg h]

theorem removeLoop_count_le_one (item : Nat) (cs : List Nat) (i : Nat) :
    (cs.drop i).count item ≤ 1 →
      removeLoop item cs i = cs.take i ++ (cs.drop i).erase item := by
  refine removeLoop.induct item
    (fun cs i => (cs.drop i).count item ≤ 1 →
      removeLoop item cs i = cs.take i ++ (cs.drop i).erase item) ?_ ?_ ?_ cs i
  · intro cs i h heq _ hcnt
    rw [List.get_eq_getElem] at heq
    have hdrop : cs.drop i = item :: cs.drop (i + 1) := by
      rw [List.drop_eq_getElem_cons h, heq]
    have hnm : item ∉ cs.drop (i + 1) := by
      rw [hdrop, List.count_cons_self] at hcnt
      exact List.not_mem_of_count_eq_zero (by omega)
    have htk : (cs.length : Nat) ≥ i := le_of_lt h
    have herase : cs.eraseIdx i = cs.take i ++ cs.drop (i + 1) :=
      List.eraseIdx_eq_take_drop_succ cs i
    rw [removeLoop, dif_pos h, if_pos (by rw [List.get_eq_getElem]; exact heq)]
    rw [removeLoop_of_not_mem item (cs.eraseIdx i) (i + 1) ?_, herase, hdrop,
      List.erase_cons_head]
    rw [herase]
    intro hm
    apply hnm
    have hlen : (cs.take i).length = i := by
      simp [List.length_take, Nat.min_eq_left htk]
    have : (cs.take i ++ cs.drop (i + 1)).drop (i + 1) = (cs.drop (i + 1)).drop 1 := by
      rw [List.drop_append_eq_append_drop, hlen]
      simp [List.drop_eq_nil_of_le, hlen, Nat.le_succ_of_le, le_refl]
    rw [this] at hm
    exact List.drop_subset _ _ hm
  · intro cs i h heq ih hcnt
    rw [List.get_eq_getElem] at heq
    have hdrop : cs.drop i = cs[i] :: cs.drop (i + 1) :=
      List.drop_eq_getElem_cons h
    have hcnt1 : (cs.drop (i + 1)).count item ≤ 1 := by
      rw [hdrop, List.count_cons] at hcnt
      omega
    rw [removeLoop, dif_pos h, if_neg (by rw [List.get_eq_getElem]; exact heq),
      ih hcnt1, hdrop, List.erase_cons_tail (by simp; exact fun he => heq he)]
    have htk : List.take (i + 1) cs = List.take i cs ++ [cs[i]] := by
      rw [List.take_succ, List.getElem?_eq_getElem h]
      rfl
    rw [htk, List.append_assoc]
    rfl
  · intro cs i h _
    have hlen : cs.length ≤ i := le_of_not_lt h
    rw [removeLoop, dif_neg h, List.drop_eq_nil_of_le hlen,
      List.take_of_length_le hlen]
    simp

/-- Membership after `insertIdx`, with no bound on the position. -/
theorem mem_insertIdx_any :
    ∀ (q : Nat) (l : List Nat) {n b : Nat}, n ∈ l.insertIdx q b →
      n = b ∨ n ∈ l
  | 0, l, n, b, h => by
    rw [List.insertIdx_zero] at h
    exact List.mem_cons.mp h
  | q + 1, [], n, b, h => by rw [List.insertIdx_succ_nil] at h; cases h
  | q + 1, hd :: t, n, b, h => by
    rw [List.insertIdx_succ_cons] at h
    rcases List.mem_cons.mp h with rfl | hm
    · exact Or.inr (List.mem_cons_self _ _)
    · rcases mem_insertIdx_any q t hm with rfl | hm2
      · exact Or.inl rfl
      · exact Or.inr (List.mem_cons_of_mem _ hm2)

/-! ## Claim C5: parent/children mutual consistency -/

/-- C5 counterexample: on the consistent arena `exStC5` (container `0`
with single child `1`), `playlist_NodeRemoveItem` detaches `1` from the
children of `0` but leaves `1`'s parent back-reference pointing at `0`,
so mutual consistency is not maintained by the mutation. -/
theorem claim_C5_counterexample :
    consistent exStC5 ∧ ¬ consistent (playlist_NodeRemoveItem exStC5 1 0) := by
  constructor
  · constructor
    · intro c cs hc n hn
      by_cases h0 : c = 0
      · subst h0
        simp only [exStC5, if_pos rfl] at hc
        cases hc
        rcases List.mem_singleton.mp hn with rfl
        rfl
      · simp only [exStC5] at hc
        rw [if_neg h0] at hc
        cases hc
    · intro n c hp
      by_cases h1 : n = 1
      · subst h1
        simp only [exStC5, if_pos rfl] at hp
        cases hp
        exact ⟨[1], rfl, List.mem_singleton_self 1⟩
      · simp only [exStC5] at hp
        rw [if_neg h1] at hp
        cases hp
  · intro hcons
    have hch : (playlist_NodeRemoveItem exStC5 1 0).childrenOf 0 = some [] := by
      simp [playlist_NodeRemoveItem, exStC5, removeLoop]
    have hpar : (playlist_NodeRemoveItem exStC5 1 0).parentOf 1 = some 0 := by
      simp [playlist_NodeRemoveItem, exStC5]
    obtain ⟨cs, hcs, hmem⟩ := hcons.2 1 0 hpar
    rw [hch] at hcs
    cases hcs
    cases hmem

/-- C5 amended: the forward half of the invariant does hold — every
node listed in a container's children keeps a parent back-reference to
that container, across `playlist_NodeRemoveItem` unconditionally and
across `playlist_NodeInsert` when the inserted item is not already
listed anywhere — but the backward half is not maintained:
`playlist_NodeRemoveItem` does not reset the removed item's parent
reference (see the counterexample). -/
theorem claim_C5_amended_forward :
    (∀ (s : St) (item parent : Nat), forwardConsistent s →
        forwardConsistent (playlist_NodeRemoveItem s item parent))
    ∧ (∀ (s : St) (item parent : Nat) (pos : Int) (s' : St),
        forwardConsistent s →
        (∀ c cs, s.childrenOf c = some cs → item ∉ cs) →
        playlist_NodeInsert s item parent pos = some s' →
        forwardConsistent s') := by
  constructor
  · intro s item parent hfc
    intro c cs hc n hn
    cases hsp : s.childrenOf parent with
    | none =>
      rw [playlist_NodeRemoveItem, hsp] at hc ⊢
      exact hfc c cs hc n hn
    | some cs0 =>
      rw [playlist_NodeRemoveItem, hsp] at hc ⊢
      show s.parentOf n = some c
      simp only at hc
      by_cases hcp : c = parent
      · rw [hcp, if_pos rfl] at hc
        cases hc
        have hmem : n ∈ cs0 := removeLoop_subset item cs0 0 n hn
        exact hcp ▸ hfc parent cs0 hsp n hmem
      · rw [if_neg hcp] at hc
        exact hfc c cs hc n hn
  · intro s item parent pos s' hfc hnl hins
    cases hsp : s.childrenOf parent with
    | none => rw [playlist_NodeInsert, hsp] at hins; cases hins
    | some cs0 =>
      rw [playlist_NodeInsert, hsp] at hins
      simp only [Option.some_inj] at hins
      subst hins
      intro c cs hc n hn
      show (if n = item then some parent else s.parentOf n) = some c
      simp only at hc
      by_cases hni : n = item
      · rw [if_pos hni]
        by_cases hcp : c = parent
        · rw [hcp]
        · rw [if_neg hcp] at hc
          exact absurd (hni ▸ hn) (hnl c cs hc)
      · rw [if_neg hni]
        by_cases hcp : c = parent
        · rw [hcp, if_pos rfl, Option.some_inj] at hc
          rcases mem_insertIdx_any _ _ (hc ▸ hn) with he | hn0
          · exact absurd he hni
          · exact hcp ▸ hfc parent cs0 hsp n hn0
        · rw [if_neg hcp] at hc
          exact hfc c cs hc n hn

/-- Witness for the amended C5 on the concrete arena `exStC5`. -/
theorem claim_C5_amended_forward_witness :
    forwardConsistent (playlist_NodeRemoveItem exStC5 1 0) :=
  claim_C5_amended_forward.1 exStC5 1 0
    (by
      intro c cs hc n hn
      by_cases h0 : c = 0
      · subst h0
        simp only [exStC5, if_pos rfl] at hc
        cases hc
        rcases List.mem_singleton.mp hn with rfl
        rfl
      · simp only [exStC5] at hc
        rw [if_neg h0] at hc
        cases hc)

/-! ## Claim C6: `playlist_NodeRemoveItem` -/

/-- C6 counterexample: with children `[1, 2, 1]`, removing item `1`
yields `[2]` — both occurrences disappear — whereas removing exactly
the first occurrence would yield `[2, 1]`. -/
theorem claim_C6_counterexample :
    (playlist_NodeRemoveItem exStC6 1 0).childrenOf 0 = some [2]
    ∧ [1, 2, 1].erase 1 = [2, 1]
    ∧ ([2] : List Nat) ≠ [2, 1] := by
  refine ⟨?_, by decide, by decide⟩
  simp [playlist_NodeRemoveItem, exStC6, removeLoop]

/-- C6 amended: `playlist_NodeRemoveItem` never touches any parent
back-reference or any other container's children; when `item` occurs at
most once in the parent's children it removes exactly that (first)
occurrence — a successful no-op when absent — keeping the remaining
children in order; but when `item` occurs several times the scan
continues past each removal, so later occurrences can also be removed
(see the counterexample). -/
theorem claim_C6_removeItem (s : St) (item parent : Nat) :
    (∀ n, (playlist_NodeRemoveItem s item parent).parentOf n = s.parentOf n)
    ∧ (∀ c, c ≠ parent →
        (playlist_NodeRemoveItem s item parent).childrenOf c = s.childrenOf c)
    ∧ (∀ cs, s.childrenOf parent = some cs → cs.count item ≤ 1 →
        (playlist_NodeRemoveItem s item parent).childrenOf parent =
          some (cs.erase item)) := by
  refine ⟨?_, ?_, ?_⟩
  · intro n
    cases hsp : s.childrenOf parent with
    | none => rw [playlist_NodeRemoveItem, hsp]
    | some cs0 => rw [playlist_NodeRemoveItem, hsp]
  · intro c hcp
    cases hsp : s.childrenOf parent with
    | none => rw [playlist_NodeRemoveItem, hsp]
    | some cs0 =>
      rw [playlist_NodeRemoveItem, hsp]
      simp only [if_neg hcp]
  · intro cs hcs hcnt
    rw [playlist_NodeRemoveItem, hcs]
    simp only [if_pos rfl, Option.some_inj]
    have := removeLoop_count_le_one item cs 0 (by simpa using hcnt)
    simpa using this

/-- Witness for C6 on the concrete arena `exStC5` (single occurrence). -/
theorem claim_C6_removeItem_witness :
    (playlist_NodeRemoveItem exStC5 1 0).parentOf 1 = exStC5.parentOf 1
    ∧ (playlist_NodeRemoveItem exStC5 1 0).childrenOf 0 =
        some (([1] : List Nat).erase 1) :=
  ⟨(claim_C6_removeItem exStC5 1 0).1 1,
   (claim_C6_removeItem exStC5 1 0).2.2 [1] (by rfl) (by decide)⟩

/-! ## Claim C10: `playlist_NodeCreate` yields empty containers -/

/-- C10: every item produced by a successful `playlist_NodeCreate` is
an empty container (`i_children = 0`, never the `-1` leaf sentinel),
whether or not an external input item was supplied; the only
requirements for success are that allocation succeeded and, when a
parent was requested, that it is a pre-existing (hence distinct)
container item. -/
theorem insert_isSome (s : St) (item parent : Nat) (pos : Int)
    (h : (s.childrenOf parent).isSome) :
    (playlist_NodeInsert s item parent pos).isSome := by
  obtain ⟨cs, hcs⟩ := Option.isSome_iff_exists.mp h
  rw [playlist_NodeInsert, hcs]
  rfl

theorem insert_childrenOf_ne {s s' : St} {item parent : Nat} {pos : Int}
    (h : playlist_NodeInsert s item parent pos = some s') {c : Nat}
    (hc : c ≠ parent) : s'.childrenOf c = s.childrenOf c := by
  cases hsp : s.childrenOf parent with
  | none => rw [playlist_NodeInsert, hsp] at h; cases h
  | some cs0 =>
    rw [playlist_NodeInsert, hsp] at h
    simp only [Option.some_inj] at h
    subst h
    show (if c = parent then _ else s.childrenOf c) = s.childrenOf c
    rw [if_neg hc]

theorem claim_C10_create_container (s : St) (reg : List Nat)
    (inputGiven : Bool) (newId : Nat) (p_parent : Option Nat)
    (hfresh : ∀ par, p_parent = some par → par ≠ newId ∧
      (s.childrenOf par).isSome) :
    (playlist_NodeCreate s reg inputGiven newId p_parent true).isSome
    ∧ ∀ s' reg',
        playlist_NodeCreate s reg inputGiven newId p_parent true =
          some (s', reg') →
        s'.childrenOf newId = some [] := by
  cases p_parent with
  | none =>
    refine ⟨by rw [playlist_NodeCreate]; rfl, ?_⟩
    intro s' reg' h
    have h2 : some
        (({ childrenOf := fun n => if n = newId then some [] else s.childrenOf n
            parentOf := s.parentOf } : St), reg ++ [newId]) =
        some (s', reg') := h
    simp only [Option.some_inj, Prod.mk.injEq] at h2
    rw [← h2.1]
    simp
  | some par =>
    obtain ⟨hne, hsome⟩ := hfresh par rfl
    obtain ⟨cs, hcs⟩ := Option.isSome_iff_exists.mp hsome
    set s1 : St :=
      { childrenOf := fun n => if n = newId then some [] else s.childrenOf n
        parentOf := s.parentOf } with hs1
    have hs1c : (s1.childrenOf par).isSome := by
      show (if par = newId then some ([] : List Nat)
        else s.childrenOf par).isSome
      rw [if_neg hne, hcs]
      rfl
    obtain ⟨s2, hs2⟩ :=
      Option.isSome_iff_exists.mp (insert_isSome s1 newId par (-1) hs1c)
    have hbody :
        playlist_NodeCreate s reg inputGiven newId (some par) true =
          (match playlist_NodeAppend s1 newId par with
            | some s3 => some (s3, reg ++ [newId])
            | none => none) := rfl
    constructor
    · rw [hbody, playlist_NodeAppend, hs2]
      rfl
    · intro s' reg' h
      rw [hbody, playlist_NodeAppend, hs2] at h
      simp only [Option.some_inj, Prod.mk.injEq] at h
      rw [← h.1]
      rw [insert_childrenOf_ne hs2 (fun he => hne he.symm)]
      show (if newId = newId then some [] else s.childrenOf newId) = some []
      rw [if_pos rfl]

/-! ## Registry lemmas for the recursive deletion -/

mutual

theorem nodeDelete_reg_subset (t : PItem) (d f : Bool) (st : RegSt) :
    ∀ r st2, playlist_NodeDelete t d f st = some (r, st2) →
      st2.reg ⊆ st.reg := by
  intro r st2 h
  cases t with
  | leaf a b c => cases h
  | node id fl cs =>
    rw [playlist_NodeDelete] at h
    by_cases hro : (fl.ro && !f) = true
    · rw [if_pos hro] at h
      simp only [Option.some_inj, Prod.mk.injEq] at h
      rw [← h.2]
      exact delChildren_reg_subset cs d f st
    · rw [if_neg hro] at h
      simp only [Option.some_inj, Prod.mk.injEq] at h
      rw [← h.2]
      intro x hx
      exact delChildren_reg_subset cs d f st (List.erase_subset _ _ hx)

theorem delChildren_reg_subset (cs : List PItem) (d f : Bool) (st : RegSt) :
    (nodeDeleteChildren cs d f st).2.reg ⊆ st.reg := by
  cases cs with
  | nil => exact fun x hx => hx
  | cons c rest =>
    have hrest := delChildren_reg_subset rest d f st
    cases c with
    | leaf id fl pl =>
      rw [nodeDeleteChildren]
      by_cases hd : d = true
      · rw [if_pos hd]
        intro x hx
        exact hrest (List.erase_subset _ _ hx)
      · rw [if_neg hd]
        exact hrest
    | node id fl ccs =>
      rw [nodeDeleteChildren]
      cases hdel : playlist_NodeDelete (.node id fl ccs) d f
          (nodeDeleteChildren rest d f st).2 with
      | none => exact hrest
      | some p =>
        obtain ⟨r2, st3⟩ := p
        have hsub := nodeDelete_reg_subset (.node id fl ccs) d f
          (nodeDeleteChildren rest d f st).2 r2 st3 hdel
        cases r2 with
        | none => exact fun x hx => hrest (hsub hx)
        | some c2 => exact fun x hx => hrest (hsub hx)

end

mutual

theorem nodeDelete_reg_nodup (t : PItem) (d f : Bool) (st : RegSt)
    (hnd : st.reg.Nodup) :
    ∀ r st2, playlist_NodeDelete t d f st = some (r, st2) →
      st2.reg.Nodup := by
  intro r st2 h
  cases t with
  | leaf a b c => cases h
  | node id fl cs =>
    rw [playlist_NodeDelete] at h
    by_cases hro : (fl.ro && !f) = true
    · rw [if_pos hro] at h
      simp only [Option.some_inj, Prod.mk.injEq] at h
      rw [← h.2]
      exact delChildren_reg_nodup cs d f st hnd
    · rw [if_neg hro] at h
      simp only [Option.some_inj, Prod.mk.injEq] at h
      rw [← h.2]
      exact (delChildren_reg_nodup cs d f st hnd).erase _

theorem delChildren_reg_nodup (cs : List PItem) (d f : Bool) (st : RegSt)
    (hnd : st.reg.Nodup) : (nodeDeleteChildren cs d f st).2.reg.Nodup := by
  cases cs with
  | nil => exact hnd
  | cons c rest =>
    have hrest := delChildren_reg_nodup rest d f st hnd
    cases c with
    | leaf id fl pl =>
      rw [nodeDeleteChildren]
      by_cases hd : d = true
      · rw [if_pos hd]
        exact hrest.erase _
      · rw [if_neg hd]
        exact hrest
    | node id fl ccs =>
      rw [nodeDeleteChildren]
      cases hdel : playlist_NodeDelete (.node id fl ccs) d f
          (nodeDeleteChildren rest d f st).2 with
      | none => exact hrest
      | some p =>
        obtain ⟨r2, st3⟩ := p
        have hn3 := nodeDelete_reg_nodup (.node id fl ccs) d f
          (nodeDeleteChildren rest d f st).2 hrest r2 st3 hdel
        cases r2 with
        | none => exact hn3
        | some c2 => exact hn3

end

/-- With `b_delete_items` and `b_force` both set, deleting a container
node reduces to the forced shape: children pass, then notify,
deregister and drop the node itself. -/
theorem nodeDelete_forced (id : Nat) (fl : Flags) (cs : List PItem)
    (st : RegSt) :
    playlist_NodeDelete (.node id fl cs) true true st =
      some (none,
        { reg := (nodeDeleteChildren cs true true st).2.reg.erase id
          notifs := (nodeDeleteChildren cs true true st).2.notifs ++ [id] }) := by
  rw [playlist_NodeDelete]
  simp

/-- Unfolding of the forced child pass on a container child. -/
theorem delChildren_cons_node_forced (id : Nat) (fl : Flags)
    (ccs rest : List PItem) (st : RegSt) :
    nodeDeleteChildren (.node id fl ccs :: rest) true true st =
      ((nodeDeleteChildren rest true true st).1,
        { reg := (nodeDeleteChildren ccs true true
            (nodeDeleteChildren rest true true st).2).2.reg.erase id
          notifs := (nodeDeleteChildren ccs true true
            (nodeDeleteChildren rest true true st).2).2.notifs ++ [id] }) := by
  rw [nodeDeleteChildren, nodeDelete_forced]

mutual

theorem nodeDelete_purges_node (id : Nat) (fl : Flags) (cs : List PItem)
    (st : RegSt) (hnd : st.reg.Nodup) :
    ∀ x ∈ subtreeIds (.node id fl cs), ∀ r st2,
      playlist_NodeDelete (.node id fl cs) true true st = some (r, st2) →
      x ∉ st2.reg := by
  intro x hx r st2 h
  rw [nodeDelete_forced] at h
  simp only [Option.some_inj, Prod.mk.injEq] at h
  rw [← h.2]
  rw [subtreeIds_node] at hx
  have hndc := delChildren_reg_nodup cs true true st hnd
  rcases List.mem_cons.mp hx with rfl | hxl
  · intro hmem
    exact ((List.Nodup.mem_erase_iff hndc).mp hmem).1 rfl
  · intro hmem
    exact delChildren_purges cs st hnd x hxl (List.erase_subset _ _ hmem)

theorem delChildren_purges (cs : List PItem) (st : RegSt)
    (hnd : st.reg.Nodup) :
    ∀ x ∈ subtreeIdsList cs, x ∉ (nodeDeleteChildren cs true true st).2.reg := by
  intro x hx
  cases cs with
  | nil => cases hx
  | cons c rest =>
    have hrestnd := delChildren_reg_nodup rest true true st hnd
    rw [subtreeIdsList_eq_cons] at hx
    cases c with
    | leaf id fl pl =>
      rw [nodeDeleteChildren, if_pos rfl]
      show x ∉ (playlist_DeleteFromItemId id
        (nodeDeleteChildren rest true true st).2).reg
      rw [playlist_DeleteFromItemId]
      rcases List.mem_append.mp hx with hxc | hxr
      · rcases List.mem_singleton.mp hxc with rfl
        intro hmem
        exact ((List.Nodup.mem_erase_iff hrestnd).mp hmem).1 rfl
      · intro hmem
        exact delChildren_purges rest st hnd x hxr
          (List.erase_subset _ _ hmem)
    | node id fl ccs =>
      rw [delChildren_cons_node_forced]
      rcases List.mem_append.mp hx with hxc | hxr
      · exact nodeDelete_purges_node id fl ccs
          (nodeDeleteChildren rest true true st).2 hrestnd x hxc _ _
          (nodeDelete_forced id fl ccs _)
      · intro hmem
        have hsub := delChildren_reg_subset ccs true true
          (nodeDeleteChildren rest true true st).2
        exact delChildren_purges rest st hnd x hxr
          (hsub (List.erase_subset _ _ hmem))

end

mutual

theorem nodeDelete_reg_keeps (t : PItem) (d f : Bool) (st : RegSt)
    (x : Nat) (hx : x ∈ st.reg) (hni : x ∉ subtreeIds t) :
    ∀ r st2, playlist_NodeDelete t d f st = some (r, st2) → x ∈ st2.reg := by
  intro r st2 h
  cases t with
  | leaf a b c => cases h
  | node id fl cs =>
    rw [playlist_NodeDelete] at h
    have hxl : x ∉ subtreeIdsList cs := by
      rw [subtreeIds_node] at hni
      exact fun hm => hni (List.mem_cons_of_mem _ hm)
    have hxid : x ≠ id := by
      rw [subtreeIds_node] at hni
      exact fun he => hni (he ▸ List.mem_cons_self _ _)
    have hkeep := delChildren_reg_keeps cs d f st x hx hxl
    by_cases hro : (fl.ro && !f) = true
    · rw [if_pos hro] at h
      simp only [Option.some_inj, Prod.mk.injEq] at h
      rw [← h.2]
      exact hkeep
    · rw [if_neg hro] at h
      simp only [Option.some_inj, Prod.mk.injEq] at h
      rw [← h.2]
      exact List.mem_erase_of_ne hxid |>.mpr hkeep

theorem delChildren_reg_keeps (cs : List PItem) (d f : Bool) (st : RegSt)
    (x : Nat) (hx : x ∈ st.reg) (hni : x ∉ subtreeIdsList cs) :
    x ∈ (nodeDeleteChildren cs d f st).2.reg := by
  cases cs with
  | nil => exact hx
  | cons c rest =>
    rw [subtreeIdsList_eq_cons] at hni
    have hnc : x ∉ subtreeIds c := fun hm => hni (List.mem_append_left _ hm)
    have hnr : x ∉ subtreeIdsList rest :=
      fun hm => hni (List.mem_append_right _ hm)
    have hrest := delChildren_reg_keeps rest d f st x hx hnr
    cases c with
    | leaf id fl pl =>
      have hxid : x ≠ id := by
        intro he
        exact hnc (by rw [he]; exact List.mem_singleton_self id)
      rw [nodeDeleteChildren]
      by_cases hd : d = true
      · rw [if_pos hd]
        show x ∈ (playlist_DeleteFromItemId id
          (nodeDeleteChildren rest d f st).2).reg
        rw [playlist_DeleteFromItemId]
        exact List.mem_erase_of_ne hxid |>.mpr hrest
      · rw [if_neg hd]
        exact hrest
    | node id fl ccs =>
      rw [nodeDeleteChildren]
      cases hdel : playlist_NodeDelete (.node id fl ccs) d f
          (nodeDeleteChildren rest d f st).2 with
      | none => exact hrest
      | some p =>
        obtain ⟨r2, st3⟩ := p
        have hkeep := nodeDelete_reg_keeps (.node id fl ccs) d f
          (nodeDeleteChildren rest d f st).2 x hrest hnc r2 st3 hdel
        cases r2 with
        | none => exact hkeep
        | some c2 => exact hkeep

end

mutual

theorem nodeDelete_notifs_keeps (t : PItem) (d f : Bool) (st : RegSt)
    (x : Nat) (hx : x ∉ st.notifs) (hni : x ∉ subtreeIds t) :
    ∀ r st2, playlist_NodeDelete t d f st = some (r, st2) →
      x ∉ st2.notifs := by
  intro r st2 h
  cases t with
  | leaf a b c => cases h
  | node id fl cs =>
    rw [playlist_NodeDelete] at h
    have hxl : x ∉ subtreeIdsList cs := by
      rw [subtreeIds_node] at hni
      exact fun hm => hni (List.mem_cons_of_mem _ hm)
    have hxid : x ≠ id := by
      rw [subtreeIds_node] at hni
      exact fun he => hni (he ▸ List.mem_cons_self _ _)
    have hkeep := delChildren_notifs_keeps cs d f st x hx hxl
    by_cases hro : (fl.ro && !f) = true
    · rw [if_pos hro] at h
      simp only [Option.some_inj, Prod.mk.injEq] at h
      rw [← h.2]
      exact hkeep
    · rw [if_neg hro] at h
      simp only [Option.some_inj, Prod.mk.injEq] at h
      rw [← h.2]
      intro hm
      rcases List.mem_append.mp hm with hm1 | hm2
      · exact hkeep hm1
      · exact hxid (List.mem_singleton.mp hm2)

theorem delChildren_notifs_keeps (cs : List PItem) (d f : Bool) (st : RegSt)
    (x : Nat) (hx : x ∉ st.notifs) (hni : x ∉ subtreeIdsList cs) :
    x ∉ (nodeDeleteChildren cs d f st).2.notifs := by
  cases cs with
  | nil => exact hx
  | cons c rest =>
    rw [subtreeIdsList_eq_cons] at hni
    have hnc : x ∉ subtreeIds c := fun hm => hni (List.mem_append_left _ hm)
    have hnr : x ∉ subtreeIdsList rest :=
      fun hm => hni (List.mem_append_right _ hm)
    have hrest := delChildren_notifs_keeps rest d f st x hx hnr
    cases c with
    | leaf id fl pl =>
      have hxid : x ≠ id := by
        intro he
        exact hnc (by rw [he]; exact List.mem_singleton_self id)
      rw [nodeDeleteChildren]
      by_cases hd : d = true
      · rw [if_pos hd]
        show x ∉ (playlist_DeleteFromItemId id
          (nodeDeleteChildren rest d f st).2).notifs
        rw [playlist_DeleteFromItemId]
        intro hm
        rcases List.mem_append.mp hm with hm1 | hm2
        · exact hrest hm1
        · exact hxid (List.mem_singleton.mp hm2)
      · rw [if_neg hd]
        exact hrest
    | node id fl ccs =>
      rw [nodeDeleteChildren]
      cases hdel : playlist_NodeDelete (.node id fl ccs) d f
          (nodeDeleteChildren rest d f st).2 with
      | none => exact hrest
      | some p =>
        obtain ⟨r2, st3⟩ := p
        have hkeep := nodeDelete_notifs_keeps (.node id fl ccs) d f
          (nodeDeleteChildren rest d f st).2 x hrest hnc r2 st3 hdel
        cases r2 with
        | none => exact hkeep
        | some c2 => exact hkeep

end

/-! ## Claim C7: forced recursive deletion purges the registry -/

/-- C7: `playlist_NodeDelete(root, deleteItems = true, force = true)` on
a container succeeds, removes the root itself (result `none`: detached
and freed), and afterwards the item registry contains no id that was
present anywhere in the root's original subtree. -/
theorem claim_C7_delete_purges (id : Nat) (fl : Flags) (cs : List PItem)
    (st : RegSt) (hnd : st.reg.Nodup) :
    ∃ st2,
      playlist_NodeDelete (.node id fl cs) true true st = some (none, st2) ∧
      ∀ x ∈ subtreeIds (.node id fl cs), x ∉ st2.reg := by
  refine ⟨_, nodeDelete_forced id fl cs st, ?_⟩
  intro x hx
  exact nodeDelete_purges_node id fl cs st hnd x hx _ _
    (nodeDelete_forced id fl cs st)

/-- Witness for C7: forced deletion of the read-only subtree
`exTreeC7` out of the registry `exRegC7`. -/
theorem claim_C7_delete_purges_witness :
    ∃ st2,
      playlist_NodeDelete exTreeC7 true true exRegC7 = some (none, st2) ∧
      ∀ x ∈ subtreeIds exTreeC7, x ∉ st2.reg :=
  claim_C7_delete_purges 70 flRO
    [.leaf 71 fl0 0, .node 72 fl0 [.leaf 73 fl0 0]] exRegC7 (by decide)

/-! ## Claim C8: unforced deletion of a read-only root -/

/-- C8: deleting a read-only container without `force` still runs the
recursive descent over the children, but the root itself survives
untouched — same id and flags, result attached (`some`), still in the
registry, no deletion notification for it — and the call returns
success. -/
theorem claim_C8_delete_ro (id : Nat) (fl : Flags) (cs : List PItem)
    (b_delete_items : Bool) (st : RegSt) (hro : fl.ro = true)
    (hid : id ∉ subtreeIdsList cs) (hreg : id ∈ st.reg)
    (hnot : id ∉ st.notifs) :
    playlist_NodeDelete (.node id fl cs) b_delete_items false st =
      some (some (.node id fl
          (nodeDeleteChildren cs b_delete_items false st).1),
        (nodeDeleteChildren cs b_delete_items false st).2)
    ∧ id ∈ (nodeDeleteChildren cs b_delete_items false st).2.reg
    ∧ id ∉ (nodeDeleteChildren cs b_delete_items false st).2.notifs := by
  refine ⟨?_, ?_, ?_⟩
  · rw [playlist_NodeDelete]
    simp [hro]
  · exact delChildren_reg_keeps cs b_delete_items false st id hreg hid
  · exact delChildren_notifs_keeps cs b_delete_items false st id hnot hid

/-- Witness for C8 on the concrete read-only subtree `exTreeC8`. -/
theorem claim_C8_delete_ro_witness :
    playlist_NodeDelete exTreeC8 true false exRegC8 =
      some (some (.node 80 flRO
          (nodeDeleteChildren [.leaf 81 fl0 0, .node 82 fl0 [.leaf 83 fl0 0]]
            true false exRegC8).1),
        (nodeDeleteChildren [.leaf 81 fl0 0, .node 82 fl0 [.leaf 83 fl0 0]]
          true false exRegC8).2)
    ∧ 80 ∈ (nodeDeleteChildren [.leaf 81 fl0 0, .node 82 fl0 [.leaf 83 fl0 0]]
        true false exRegC8).2.reg
    ∧ 80 ∉ (nodeDeleteChildren [.leaf 81 fl0 0, .node 82 fl0 [.leaf 83 fl0 0]]
        true false exRegC8).2.notifs :=
  claim_C8_delete_ro 80 flRO [.leaf 81 fl0 0, .node 82 fl0 [.leaf 83 fl0 0]]
    true exRegC8 (by rfl) (by decide) (by decide) (by decide)

/-! ## Claim C2: the next/prev leaf round-trip is broken -/

/-- C2 (code bug): on `root [X(leaf 21), Y(node 22 [Y1(leaf 23)])]`
with both filters off, `playlist_GetNextLeaf` steps from `X = [0]` to
`Y1 = [1,0]`, but `playlist_GetPrevLeaf` from `Y1` returns `none`
instead of `X`: `GetPrevUncle` guards the previous sibling with
`i - 1 > 0` instead of `i - 1 >= 0` and climbs past the sibling at
index 0, so the round-trip of the claim fails exactly when the
backward step must recover a previous ancestor sibling. -/
theorem claim_C2_roundtrip_bug :
    playlist_GetNextLeaf 9 exTreeC2 (some [0]) false false = some [1, 0]
    ∧ playlist_GetPrevLeaf 9 exTreeC2 (some [1, 0]) false false =
        PrevRes.ret none
    ∧ PrevRes.ret (some [0]) ≠ PrevRes.ret none := by
  exact ⟨by rfl, by rfl, by decide⟩

/-! ## Claim C9: `playlist_GetPrevLeaf` with cursor none aborts -/

/-- C9 (code bug): `playlist_GetPrevLeaf(root, NULL, ...)` does not
return a leaf or none — `GetPrevItem` reaches `abort()` on the `NULL`
cursor, although the function's own documentation says the cursor is
"NULL if none". -/
theorem claim_C9_prevLeaf_aborts :
    playlist_GetPrevLeaf 9 exTreeC9 none false false = PrevRes.abort
    ∧ playlist_GetNextLeaf 9 exTreeC9 none false false = some [0] := by
  exact ⟨by rfl, by rfl⟩

/-- Witness for C10: creating item `7` under container `0`. -/
theorem claim_C10_create_container_witness :
    (playlist_NodeCreate exStC10 [0] false 7 (some 0) true).isSome
    ∧ exStC10res.childrenOf 7 = some [] :=
  ⟨(claim_C10_create_container exStC10 [0] false 7 (some 0)
      (by intro par hp; cases hp; exact ⟨by decide, by rfl⟩)).1,
   (claim_C10_create_container exStC10 [0] false 7 (some 0)
      (by intro par hp; cases hp; exact ⟨by decide, by rfl⟩)).2
     exStC10res [0, 7] (by rfl)⟩

end VlcTree
